import Mathlib

/-!
# Verification of the Eclipse asset-generation scripts

Shallow embedding of the core algorithms of `scripts/gen_eclipse_fonts.py`
and `scripts/convert_icons_to_bin.py`:

* `get_pixel` / `set_pixel` / `scale_1bpp_atlas` — packed 1bpp glyph-atlas
  accessors and the nearest-neighbor atlas scaler;
* `ensure_atlas_size` — pad/truncate of a byte buffer to an exact length;
* `to_rgb888_pixel` / `to_rgb888` — the per-pixel alpha / color-key
  transform and the raw RGB888 buffer builder;
* `LAYOUTS` / `runLayouts` — the ordered layout table and the write loop.

Python `bytes`/`bytearray` values are modelled as `List Nat` (each entry a
byte value `< 256`); Python `int` coordinates — which may be negative and
index from the end of a buffer — are modelled as `Int`, with `pyGet`/`pySet`
reproducing Python's indexing discipline (negative wrap-around, `IndexError`
as `none`).  Python floor division `//` is `Int.fdiv`; `%` on a positive
divisor is `Int.emod`.
-/

/-! ## Python list indexing -/

/-- Python `data[i]` on a byte string: nonnegative indices must be below the
length, negative indices wrap by adding the length, anything else raises
(`none`). -/
def pyGet (data : List Nat) (i : Int) : Option Nat :=
  if 0 ≤ i then data[i.toNat]?
  else if 0 ≤ (data.length : Int) + i then data[((data.length : Int) + i).toNat]?
  else none

/-- Python `buf[i] = b` on a bytearray: same index discipline as `pyGet`,
returning the updated buffer. -/
def pySet (buf : List Nat) (i : Int) (b : Nat) : Option (List Nat) :=
  if 0 ≤ i then
    if i.toNat < buf.length then some (buf.set i.toNat b) else none
  else if 0 ≤ (buf.length : Int) + i then
    some (buf.set ((buf.length : Int) + i).toNat b)
  else none

/-! ## `gen_eclipse_fonts.py` -/

/-- `get_pixel` from `scale_1bpp_atlas` (gen_eclipse_fonts.py, lines 54-59):
read one bit of a packed 1bpp bitmap of width `bw`; returns `0` when the
computed byte index is at least `len(data)`, otherwise indexes the buffer
Python-style. -/
def get_pixel (data : List Nat) (bw : Nat) (x y : Int) : Option Nat :=
  let bpr : Nat := (bw + 7) / 8
  let byte_idx : Int := y * bpr + x.fdiv 8
  if (data.length : Int) ≤ byte_idx then some 0
  else (pyGet data byte_idx).map (fun byte =>
    if (byte >>> (7 - x % 8).toNat) &&& 1 ≠ 0 then 1 else 0)

/-- `set_pixel` from `scale_1bpp_atlas` (gen_eclipse_fonts.py, lines 61-65):
OR the bit into the buffer when `byte_idx < len(buf)` and `v` is truthy,
otherwise leave the buffer unchanged. -/
def set_pixel (buf : List Nat) (bw : Nat) (x y : Int) (v : Nat) :
    Option (List Nat) :=
  let bpr : Nat := (bw + 7) / 8
  let byte_idx : Int := y * bpr + x.fdiv 8
  if byte_idx < (buf.length : Int) ∧ v ≠ 0 then
    (pyGet buf byte_idx).bind (fun byte =>
      pySet buf byte_idx (byte ||| 1 <<< (7 - x % 8).toNat))
  else some buf

/-- `scale_1bpp_atlas` (gen_eclipse_fonts.py, lines 38-83): nearest-neighbor
rescale of the fixed 6-row, 16-glyphs-per-row, 96-glyph atlas from source
cell `(src_glyph_w, src_glyph_h)` to destination cell
`(dst_glyph_w, dst_glyph_h)`.  The Python `break` on `gidx >= 96` is the
`takeWhile`; the nested `for` loops are `foldlM` over `Option` so that a
Python `IndexError` would surface as `none`. -/
def scale_1bpp_atlas (src_data : List Nat)
    (src_glyph_w src_glyph_h dst_glyph_w dst_glyph_h : Nat)
    (glyphs_per_row : Nat := 16) : Option (List Nat) :=
  let rows := 6
  let src_atlas_w := glyphs_per_row * src_glyph_w
  let dst_atlas_w := glyphs_per_row * dst_glyph_w
  let dst_atlas_h := rows * dst_glyph_h
  let dst_bytes_per_row := (dst_atlas_w + 7) / 8
  let dst0 : List Nat := List.replicate (dst_bytes_per_row * dst_atlas_h) 0
  (List.range rows).foldlM (fun dst gr =>
    ((List.range glyphs_per_row).takeWhile
        (fun gc => decide (gr * glyphs_per_row + gc < 96))).foldlM (fun dst gc =>
      (List.range dst_glyph_h).foldlM (fun dst dy =>
        (List.range dst_glyph_w).foldlM (fun dst dx =>
          let sx := if 0 < dst_glyph_w then dx * src_glyph_w / dst_glyph_w else 0
          let sy := if 0 < dst_glyph_h then dy * src_glyph_h / dst_glyph_h else 0
          let gx := gc * src_glyph_w + sx
          let gy := gr * src_glyph_h + sy
          (get_pixel src_data src_atlas_w gx gy).bind (fun p =>
            let ox := gc * dst_glyph_w + dx
            let oy := gr * dst_glyph_h + dy
            set_pixel dst dst_atlas_w ox oy p)) dst) dst) dst) dst0

/-- `ensure_atlas_size` (gen_eclipse_fonts.py, lines 86-90): truncate to
`expected_bytes` when the buffer is at least that long, otherwise right-pad
with zero bytes. -/
def ensure_atlas_size (data : List Nat) (expected_bytes : Nat) : List Nat :=
  if expected_bytes ≤ data.length then data.take expected_bytes
  else data ++ List.replicate (expected_bytes - data.length) 0

/-! ## `convert_icons_to_bin.py` -/

/-- A pixel as returned by PIL's `pix[x, y]`: a 3-tuple for `RGB` images, a
4-tuple for `RGBA`. -/
inductive PixelVal where
  | rgb (r g b : Nat)
  | rgba (r g b a : Nat)

/-- `BLACK_THRESH` (convert_icons_to_bin.py, line 46). -/
def BLACK_THRESH : Nat := 24

/-- The per-pixel body of `to_rgb888` (convert_icons_to_bin.py, lines 64-72):
alpha keying (`a < 128` forces black) followed by the strict-less-than
color-key threshold against `BLACK_THRESH`. -/
def to_rgb888_pixel (black_to_transparent : Bool) (p : PixelVal) :
    Nat × Nat × Nat :=
  let rgb :=
    match p with
    | .rgba r g b a => if a < 128 then (0, 0, 0) else (r, g, b)
    | .rgb r g b => (r, g, b)
  let (r, g, b) := rgb
  if black_to_transparent ∧ r < BLACK_THRESH ∧ g < BLACK_THRESH ∧
      b < BLACK_THRESH then (0, 0, 0)
  else (r, g, b)

/-- `to_rgb888` (convert_icons_to_bin.py, lines 48-75), after the PIL resize:
fill a zeroed `size[0] * size[1] * 3` bytearray with the keyed channels of
each pixel of the resampled image (given here as the sampling function
`pix`). -/
def to_rgb888 (size : Nat × Nat) (pix : Nat → Nat → PixelVal)
    (black_to_transparent : Bool := true) : List Nat :=
  let out0 : List Nat := List.replicate (size.1 * size.2 * 3) 0
  (List.range size.2).foldl (fun out y =>
    (List.range size.1).foldl (fun out x =>
      let (r, g, b) := to_rgb888_pixel black_to_transparent (pix x y)
      let i := (y * size.1 + x) * 3
      ((out.set i r).set (i + 1) g).set (i + 2) b) out) out0

/-! ## Generic helper lemmas -/

theorem foldl_length_eq {α : Type} (f : List Nat → α → List Nat)
    (hf : ∀ s a, (f s a).length = s.length) :
    ∀ (l : List α) (s : List Nat), (l.foldl f s).length = s.length := by
  intro l
  induction l with
  | nil => intro s; rfl
  | cons a t ih => intro s; rw [List.foldl_cons, ih, hf]

theorem getD_set_length {l : List Nat} {i : Nat} {a : Nat} :
    (l.set i a).length = l.length := List.length_set ..

/-! ## C5: `ensure_atlas_size` pads or truncates to the exact length -/

/-- C5.  `ensure_atlas_size data N` always returns exactly `N` bytes: the
first `min (len data) N` of them are the corresponding prefix of `data`, and
any remaining ones are zero. -/
theorem c5_ensure_atlas_size (data : List Nat) (expected : Nat) :
    (ensure_atlas_size data expected).length = expected ∧
    ∀ i, i < expected →
      (ensure_atlas_size data expected).getD i 0 =
        if i < data.length then data.getD i 0 else 0 := by
  unfold ensure_atlas_size
  by_cases h : expected ≤ data.length
  · simp only [h, if_pos]
    refine ⟨by simpa using h, ?_⟩
    intro i hi
    have hid : i < data.length := lt_of_lt_of_le hi h
    simp [List.getD_eq_getElem?_getD, List.getElem?_take, hi, hid]
  · simp only [h, if_neg, not_false_iff]
    constructor
    · simp; omega
    · intro i hi
      by_cases hid : i < data.length
      · simp [List.getD_eq_getElem?_getD, List.getElem?_append, hid]
      · have hrep : i - data.length < expected - data.length := by omega
        simp [List.getD_eq_getElem?_getD, List.getElem?_append, hid,
          List.getElem?_replicate, hrep]

/-- C5 witness: `ensure_atlas_size [1, 2, 3] 5` has length 5, keeps the
prefix, and pads with a zero at index 4. -/
theorem c5_ensure_atlas_size_witness :
    (ensure_atlas_size [1, 2, 3] 5).length = 5 ∧
    (ensure_atlas_size [1, 2, 3] 5).getD 0 0 = 1 ∧
    (ensure_atlas_size [1, 2, 3] 5).getD 4 0 = 0 :=
  ⟨(c5_ensure_atlas_size [1, 2, 3] 5).1,
   ((c5_ensure_atlas_size [1, 2, 3] 5).2 0 (by decide)).trans (by decide),
   ((c5_ensure_atlas_size [1, 2, 3] 5).2 4 (by decide)).trans (by decide)⟩

/-! ## C6: strict-less-than color-key threshold -/

/-- C6.  After the alpha step, a pixel all of whose channels are strictly
below `BLACK_THRESH = 24` is forced to exactly `(0, 0, 0)`, and a pixel with
at least one channel `≥ 24` passes through unchanged — both for plain `RGB`
pixels and for `RGBA` pixels that survive the alpha test (`a ≥ 128`). -/
theorem c6_black_threshold (r g b a : Nat) :
    (r < 24 ∧ g < 24 ∧ b < 24 →
      to_rgb888_pixel true (.rgb r g b) = (0, 0, 0) ∧
      (128 ≤ a → to_rgb888_pixel true (.rgba r g b a) = (0, 0, 0))) ∧
    (¬(r < 24 ∧ g < 24 ∧ b < 24) →
      to_rgb888_pixel true (.rgb r g b) = (r, g, b) ∧
      (128 ≤ a → to_rgb888_pixel true (.rgba r g b a) = (r, g, b))) := by
  unfold to_rgb888_pixel BLACK_THRESH
  constructor
  · intro h
    constructor
    · simp [h.1, h.2.1, h.2.2]
    · intro ha
      have : ¬a < 128 := by omega
      simp [this, h.1, h.2.1, h.2.2]
  · intro h
    constructor
    · have : ¬(True ∧ r < 24 ∧ g < 24 ∧ b < 24) := by simpa using h
      simp only [this, if_neg, not_false_iff]
    · intro ha
      have hna : ¬a < 128 := by omega
      have : ¬(True ∧ r < 24 ∧ g < 24 ∧ b < 24) := by simpa using h
      simp only [hna, if_neg, not_false_iff, this]

/-- C6 witness: `(23, 23, 23)` collapses to black, `(24, 24, 24)` is kept
unchanged (threshold is strict). -/
theorem c6_black_threshold_witness :
    to_rgb888_pixel true (.rgb 23 23 23) = (0, 0, 0) ∧
    to_rgb888_pixel true (.rgb 24 24 24) = (24, 24, 24) :=
  ⟨((c6_black_threshold 23 23 23 0).1 (by decide)).1,
   ((c6_black_threshold 24 24 24 0).2 (by decide)).1⟩

/-! ## C7: alpha keying -/

/-- C7.  A resampled `RGBA` pixel with `a < 128` converts to `(0, 0, 0)`
regardless of its stored channels; with `a ≥ 128` it behaves exactly like
the `RGB` pixel of its stored channels (only the threshold step can still
change it). -/
theorem c7_alpha_key (black_to_transparent : Bool) (r g b a : Nat) :
    (a < 128 →
      to_rgb888_pixel black_to_transparent (.rgba r g b a) = (0, 0, 0)) ∧
    (128 ≤ a →
      to_rgb888_pixel black_to_transparent (.rgba r g b a) =
        to_rgb888_pixel black_to_transparent (.rgb r g b)) := by
  unfold to_rgb888_pixel BLACK_THRESH
  constructor
  · intro ha
    cases black_to_transparent <;> simp [ha]
  · intro ha
    have : ¬a < 128 := by omega
    simp [this]

/-- C7 witness: a fully saturated red pixel with `a = 127` converts to
black; with `a = 128` it converts like the plain RGB pixel. -/
theorem c7_alpha_key_witness :
    to_rgb888_pixel true (.rgba 255 0 0 127) = (0, 0, 0) ∧
    to_rgb888_pixel true (.rgba 255 0 0 128) =
      to_rgb888_pixel true (.rgb 255 0 0) :=
  ⟨(c7_alpha_key true 255 0 0 127).1 (by decide),
   (c7_alpha_key true 255 0 0 128).2 (by decide)⟩

/-! ## Pure forms of the pixel accessors at nonnegative coordinates -/

/-- Reasoning form of `get_pixel` at nonnegative coordinates: the bit at
byte `y * bpr + x / 8`, position `7 - x % 8`, with reads past the end of
the buffer giving `0` (`getD` default). -/
def bitOf (data : List Nat) (bpr x y : Nat) : Bool :=
  (data.getD (y * bpr + x / 8) 0).testBit (7 - x % 8)

/-- Reasoning form of `set_pixel` at nonnegative coordinates: OR the mask
into byte `y * bpr + x / 8` when that index is in range and `v ≠ 0`. -/
def setPix (buf : List Nat) (bpr x y v : Nat) : List Nat :=
  if y * bpr + x / 8 < buf.length ∧ v ≠ 0 then
    buf.set (y * bpr + x / 8)
      (buf.getD (y * bpr + x / 8) 0 ||| 1 <<< (7 - x % 8))
  else buf

theorem fdiv_cast (x : Nat) : (↑x : Int).fdiv 8 = ↑(x / 8) :=
  (Int.ofNat_fdiv x 8).symm

theorem byte_idx_cast (x y bpr : Nat) :
    ((y : Int) * (bpr : Int) + (x : Int).fdiv 8)
      = ((y * bpr + x / 8 : Nat) : Int) := by
  rw [fdiv_cast]; push_cast; ring

theorem shift_toNat_cast (x : Nat) :
    ((7 : Int) - (x : Int) % 8).toNat = 7 - x % 8 := by
  omega

theorem shift_and_one (b n : Nat) :
    (if (b >>> n) &&& 1 ≠ 0 then 1 else 0) = (if b.testBit n then 1 else 0) := by
  have h : ((b >>> n) &&& 1 ≠ 0) ↔ b.testBit n := by
    simp only [Nat.testBit, Nat.and_comm (b >>> n) 1, Nat.one_and_eq_mod_two,
      bne_iff_ne]
  simp only [h]

/-- At nonnegative coordinates `get_pixel` never raises and reads `bitOf`. -/
theorem get_pixel_nat (data : List Nat) (bw x y : Nat) :
    get_pixel data bw (x : Int) (y : Int)
      = some (if bitOf data ((bw + 7) / 8) x y then 1 else 0) := by
  have hidx := byte_idx_cast x y ((bw + 7) / 8)
  simp only [get_pixel, bitOf, hidx, shift_toNat_cast]
  by_cases hlen : data.length ≤ y * ((bw + 7) / 8) + x / 8
  · rw [if_pos (by exact_mod_cast hlen)]
    simp only [List.getD_eq_default _ _ hlen]
    simp [Nat.zero_testBit]
  · rw [if_neg (by exact_mod_cast hlen)]
    have hlt : y * ((bw + 7) / 8) + x / 8 < data.length := by omega
    unfold pyGet
    rw [if_pos (by exact_mod_cast Nat.zero_le (y * ((bw + 7) / 8) + x / 8))]
    rw [Int.toNat_natCast, List.getElem?_eq_getElem hlt]
    simp only [Option.map_some']
    rw [shift_and_one]
    simp only [List.getD_eq_getElem _ _ hlt]

/-- At nonnegative coordinates `set_pixel` never raises and acts as
`setPix`. -/
theorem set_pixel_nat (buf : List Nat) (bw x y v : Nat) :
    set_pixel buf bw (x : Int) (y : Int) v
      = some (setPix buf ((bw + 7) / 8) x y v) := by
  have hidx := byte_idx_cast x y ((bw + 7) / 8)
  simp only [set_pixel, setPix, hidx, shift_toNat_cast]
  by_cases hcond : y * ((bw + 7) / 8) + x / 8 < buf.length ∧ v ≠ 0
  · rw [if_pos (by exact_mod_cast hcond), if_pos hcond]
    unfold pyGet pySet
    rw [if_pos (by exact_mod_cast Nat.zero_le (y * ((bw + 7) / 8) + x / 8))]
    rw [Int.toNat_natCast, List.getElem?_eq_getElem hcond.1]
    simp only [Option.some_bind]
    rw [if_pos hcond.1]
    simp only [List.getD_eq_getElem _ _ hcond.1]
    rw [if_pos (Int.natCast_nonneg _)]
  · rw [if_neg (by exact_mod_cast hcond), if_neg hcond]

/-! ## C3: out-of-range reads -/

/-- C3 counterexample.  The claim says `get_pixel` returns `0` for every
coordinate outside `[0,width) × [0,height)` and never raises.  But for the
one-row bitmap of width 6 stored in the single byte `[1]`, the out-of-range
read at `x = 7` lands in the padding bits of the same byte and returns the
stored bit `1`; and the read at `y = -2` on an 8-wide one-row bitmap
computes byte index `-2`, below `-len(data)`, and raises `IndexError`
(`none`). -/
theorem c3_get_pixel_counterexample :
    get_pixel [1] 6 7 0 = some 1 ∧ get_pixel [1] 8 0 (-2) = none := by
  decide

/-- C3 (amended).  `get_pixel` returns `0` exactly when the computed byte
index `y * ceil(bw/8) + x // 8` is at least `len data` (in particular for
every read below the bitmap); for other out-of-range coordinates whose
byte index still lands in `[-len data, len data)` it returns the stored bit
at that index — Python-style, with negative indices wrapping around — and
it raises (`none`) only when the byte index is below `-len data`. -/
theorem c3_get_pixel_oob (data : List Nat) (bw : Nat) (x y : Int) (i : Int)
    (hi : i = y * (((bw + 7) / 8 : Nat) : Int) + x.fdiv 8) :
    ((data.length : Int) ≤ i → get_pixel data bw x y = some 0) ∧
    (-(data.length : Int) ≤ i → (get_pixel data bw x y).isSome = true) ∧
    (i < -(data.length : Int) → get_pixel data bw x y = none) := by
  simp only [get_pixel, pyGet, ← hi]
  by_cases hge : (data.length : Int) ≤ i
  · rw [if_pos hge]
    exact ⟨fun _ => rfl, fun _ => rfl, fun hlt => absurd hge (by omega)⟩
  · rw [if_neg hge]
    by_cases hpos : 0 ≤ i
    · have hlt : i.toNat < data.length := by omega
      rw [if_pos hpos, List.getElem?_eq_getElem hlt]
      exact ⟨fun h => absurd h hge, fun _ => rfl, fun h => by omega⟩
    · rw [if_neg hpos]
      by_cases hwrap : 0 ≤ (data.length : Int) + i
      · have hlt : ((data.length : Int) + i).toNat < data.length := by omega
        rw [if_pos hwrap, List.getElem?_eq_getElem hlt]
        exact ⟨fun h => absurd h hge, fun _ => rfl, fun h => by omega⟩
      · rw [if_neg hwrap]
        refine ⟨fun h => absurd h hge, fun h => absurd h (by omega), fun _ => rfl⟩

/-- C3 witness: on the one-byte bitmap `[0]` of width 8, the read at
`y = 5` has byte index `5 ≥ 1` and returns `0`. -/
theorem c3_get_pixel_oob_witness : get_pixel [0] 8 0 5 = some 0 :=
  (c3_get_pixel_oob [0] 8 0 5 5 (by decide)).1 (by decide)

/-! ## C4: `set_pixel` behavior -/

/-- C4 counterexample.  The claim says `set_pixel` clears the bit when
`v = 0` and leaves the buffer untouched for every out-of-range coordinate.
But with `v = 0` the code takes the no-write branch even in range — the
set bit 7 of `[255]` is *not* cleared — and at the negative coordinate
`y = -1` on a two-byte buffer the computed byte index `-1` passes the
`byte_idx < len` guard and writes into the last byte Python-style, changing
the buffer to `[0, 128]`. -/
theorem c4_set_pixel_counterexample :
    set_pixel [255] 8 0 0 0 = some [255] ∧
    set_pixel [0, 0] 8 0 (-1) 1 = some [0, 128] := by
  decide

/-- C4 (amended).  For nonnegative coordinates: `set_pixel` with `v = 0` is
always a no-op (it never clears a bit); when the computed byte index is past
the buffer it is a no-op; and when the index is in range and `v ≠ 0` it ORs
the mask `1 <<< (7 - x % 8)` into that byte, making the addressed bit `1`.
(Negative coordinates are *not* dropped: as the counterexample shows they
can wrap around and write, or raise.) -/
theorem c4_set_pixel (buf : List Nat) (bw x y v : Nat) :
    (set_pixel buf bw (x : Int) (y : Int) 0 = some buf) ∧
    (buf.length ≤ y * ((bw + 7) / 8) + x / 8 →
      set_pixel buf bw (x : Int) (y : Int) v = some buf) ∧
    (y * ((bw + 7) / 8) + x / 8 < buf.length → v ≠ 0 →
      set_pixel buf bw (x : Int) (y : Int) v =
        some (buf.set (y * ((bw + 7) / 8) + x / 8)
          (buf.getD (y * ((bw + 7) / 8) + x / 8) 0 ||| 1 <<< (7 - x % 8))) ∧
      bitOf (buf.set (y * ((bw + 7) / 8) + x / 8)
          (buf.getD (y * ((bw + 7) / 8) + x / 8) 0 ||| 1 <<< (7 - x % 8)))
        ((bw + 7) / 8) x y = true) := by
  refine ⟨?_, ?_, ?_⟩
  · rw [set_pixel_nat]
    simp [setPix]
  · intro h
    rw [set_pixel_nat]
    have hc : ¬(y * ((bw + 7) / 8) + x / 8 < buf.length ∧ v ≠ 0) := by omega
    simp [setPix, hc]
  · intro h hv
    constructor
    · rw [set_pixel_nat]
      simp [setPix, h, hv]
    · have hlt : y * ((bw + 7) / 8) + x / 8 <
          (buf.set (y * ((bw + 7) / 8) + x / 8)
            (buf.getD (y * ((bw + 7) / 8) + x / 8) 0 ||| 1 <<< (7 - x % 8))).length := by
        simpa using h
      simp only [bitOf, List.getD_eq_getElem _ _ hlt]
      simp [List.getElem_set_self, Nat.testBit_or, Nat.one_shiftLeft,
        Nat.testBit_two_pow_self]

/-- C4 witness: on the two-byte buffer `[0, 0]` of width 8, writing `v = 1`
at `(x, y) = (0, 1)` ORs `128` into byte 1 and that bit reads back as 1;
`v = 0` at the same spot is a no-op; and the write at `y = 7` (byte index 7,
past the buffer) is a no-op. -/
theorem c4_set_pixel_witness :
    set_pixel [0, 0] 8 0 1 1 = some [0, 128] ∧
    bitOf [0, 128] 1 0 1 = true ∧
    set_pixel [0, 0] 8 0 1 0 = some [0, 0] ∧
    set_pixel [0, 0] 8 0 7 1 = some [0, 0] :=
  ⟨(((c4_set_pixel [0, 0] 8 0 1 1).2.2 (by decide) (by decide)).1).trans (by decide),
   (by decide : bitOf [0, 128] 1 0 1 = true),
   (c4_set_pixel [0, 0] 8 0 1 0).1,
   (c4_set_pixel [0, 0] 8 0 7 1).2.1 (by decide)⟩

/-! ## Flattened pure form of `scale_1bpp_atlas` -/

/-- The flattened iteration order `(gr, gc, dy, dx)` of the four nested
loops of `scale_1bpp_atlas` over the full 6 × 16 glyph grid. -/
def stepList (dst_glyph_h dst_glyph_w : Nat) : List (Nat × Nat × Nat × Nat) :=
  (List.range 6).flatMap (fun gr =>
    (List.range 16).flatMap (fun gc =>
      (List.range dst_glyph_h).flatMap (fun dy =>
        (List.range dst_glyph_w).map (fun dx => (gr, gc, dy, dx)))))

/-- The per-pixel body of the scaler as a pure step on the destination
buffer. -/
def scaleStep (src : List Nat) (sgw sgh dgw dgh : Nat)
    (dst : List Nat) (q : Nat × Nat × Nat × Nat) : List Nat :=
  let sx := if 0 < dgw then q.2.2.2 * sgw / dgw else 0
  let sy := if 0 < dgh then q.2.2.1 * sgh / dgh else 0
  let p := if bitOf src ((16 * sgw + 7) / 8) (q.2.1 * sgw + sx) (q.1 * sgh + sy)
    then 1 else 0
  setPix dst ((16 * dgw + 7) / 8) (q.2.1 * dgw + q.2.2.2) (q.1 * dgh + q.2.2.1) p

/-- Pure form of `scale_1bpp_atlas` at the default 16 glyphs per row. -/
def scalePure (src : List Nat) (sgw sgh dgw dgh : Nat) : List Nat :=
  (stepList dgh dgw).foldl (scaleStep src sgw sgh dgw dgh)
    (List.replicate (((16 * dgw + 7) / 8) * (6 * dgh)) 0)

theorem foldlM_option {α β : Type} (f : β → α → Option β) (g : β → α → β)
    (l : List α) (h : ∀ s a, a ∈ l → f s a = some (g s a)) :
    ∀ s : β, l.foldlM f s = some (l.foldl g s) := by
  induction l with
  | nil => intro s; rfl
  | cons a t ih =>
    intro s
    rw [List.foldlM_cons, h s a (List.mem_cons_self a t)]
    show t.foldlM f (g s a) = _
    exact ih (fun s b hb => h s b (List.mem_cons_of_mem a hb)) (g s a)

theorem takeWhile_all {α : Type} (p : α → Bool) :
    ∀ l : List α, (∀ a ∈ l, p a = true) → l.takeWhile p = l := by
  intro l
  induction l with
  | nil => intro _; rfl
  | cons a t ih =>
    intro h
    rw [List.takeWhile_cons, h a (List.mem_cons_self a t)]
    simp [ih (fun b hb => h b (List.mem_cons_of_mem a hb))]

theorem foldl_flatMap {α β γ : Type} (l : List α) (g : α → List β)
    (f : γ → β → γ) : ∀ s : γ,
    (l.flatMap g).foldl f s = l.foldl (fun s a => (g a).foldl f s) s := by
  induction l with
  | nil => intro s; rfl
  | cons a t ih =>
    intro s
    rw [List.flatMap_cons, List.foldl_append, List.foldl_cons, ih]

/-- `scale_1bpp_atlas` at 16 glyphs per row never raises and computes
`scalePure`. -/
theorem scale_eq_scalePure (src : List Nat) (sgw sgh dgw dgh : Nat) :
    scale_1bpp_atlas src sgw sgh dgw dgh 16
      = some (scalePure src sgw sgh dgw dgh) := by
  have hstep : ∀ (gr gc dy dx : Nat) (dst : List Nat),
      (get_pixel src (16 * sgw)
          ((gc * sgw + (if 0 < dgw then dx * sgw / dgw else 0) : Nat) : Int)
          ((gr * sgh + (if 0 < dgh then dy * sgh / dgh else 0) : Nat) : Int)).bind
        (fun p => set_pixel dst (16 * dgw)
          ((gc * dgw + dx : Nat) : Int) ((gr * dgh + dy : Nat) : Int) p)
      = some (scaleStep src sgw sgh dgw dgh dst (gr, gc, dy, dx)) := by
    intro gr gc dy dx dst
    rw [get_pixel_nat, Option.some_bind, set_pixel_nat]
    rfl
  have h3 : ∀ (gr gc dy : Nat) (dst : List Nat),
      (List.range dgw).foldlM (fun dst dx =>
        (get_pixel src (16 * sgw)
            ((gc * sgw + (if 0 < dgw then dx * sgw / dgw else 0) : Nat) : Int)
            ((gr * sgh + (if 0 < dgh then dy * sgh / dgh else 0) : Nat) : Int)).bind
          (fun p => set_pixel dst (16 * dgw)
            ((gc * dgw + dx : Nat) : Int) ((gr * dgh + dy : Nat) : Int) p)) dst
      = some ((List.range dgw).foldl
          (fun dst dx => scaleStep src sgw sgh dgw dgh dst (gr, gc, dy, dx)) dst) :=
    fun gr gc dy => foldlM_option _ _ _ (fun dst dx _ => hstep gr gc dy dx dst)
  have h2 : ∀ (gr gc : Nat) (dst : List Nat),
      (List.range dgh).foldlM (fun dst dy =>
        (List.range dgw).foldlM (fun dst dx =>
          (get_pixel src (16 * sgw)
              ((gc * sgw + (if 0 < dgw then dx * sgw / dgw else 0) : Nat) : Int)
              ((gr * sgh + (if 0 < dgh then dy * sgh / dgh else 0) : Nat) : Int)).bind
            (fun p => set_pixel dst (16 * dgw)
              ((gc * dgw + dx : Nat) : Int) ((gr * dgh + dy : Nat) : Int) p)) dst) dst
      = some ((List.range dgh).foldl (fun dst dy => (List.range dgw).foldl
          (fun dst dx => scaleStep src sgw sgh dgw dgh dst (gr, gc, dy, dx)) dst) dst) :=
    fun gr gc => foldlM_option _ _ _ (fun dst dy _ => h3 gr gc dy dst)
  have h1 : ∀ gr : Nat, gr < 6 → ∀ dst : List Nat,
      ((List.range 16).takeWhile (fun gc => decide (gr * 16 + gc < 96))).foldlM
        (fun dst gc => (List.range dgh).foldlM (fun dst dy =>
          (List.range dgw).foldlM (fun dst dx =>
            (get_pixel src (16 * sgw)
                ((gc * sgw + (if 0 < dgw then dx * sgw / dgw else 0) : Nat) : Int)
                ((gr * sgh + (if 0 < dgh then dy * sgh / dgh else 0) : Nat) : Int)).bind
              (fun p => set_pixel dst (16 * dgw)
                ((gc * dgw + dx : Nat) : Int) ((gr * dgh + dy : Nat) : Int) p)) dst) dst) dst
      = some ((List.range 16).foldl (fun dst gc =>
          (List.range dgh).foldl (fun dst dy => (List.range dgw).foldl
            (fun dst dx => scaleStep src sgw sgh dgw dgh dst (gr, gc, dy, dx))
            dst) dst) dst) := by
    intro gr hgr dst
    have htw : (List.range 16).takeWhile (fun gc => decide (gr * 16 + gc < 96))
        = List.range 16 := by
      apply takeWhile_all
      intro gc hgc
      have hgc16 : gc < 16 := List.mem_range.mp hgc
      simp only [decide_eq_true_eq]
      omega
    rw [htw]
    exact foldlM_option _ _ _ (fun dst gc _ => h2 gr gc dst) dst
  have hflat : scalePure src sgw sgh dgw dgh
      = (List.range 6).foldl (fun dst gr => (List.range 16).foldl (fun dst gc =>
          (List.range dgh).foldl (fun dst dy => (List.range dgw).foldl
            (fun dst dx => scaleStep src sgw sgh dgw dgh dst (gr, gc, dy, dx))
            dst) dst) dst)
        (List.replicate (((16 * dgw + 7) / 8) * (6 * dgh)) 0) := by
    unfold scalePure stepList
    simp only [foldl_flatMap, List.foldl_map]
  unfold scale_1bpp_atlas
  rw [hflat]
  exact foldlM_option _ _ _ (fun dst gr hgr => h1 gr (List.mem_range.mp hgr) dst) _

/-! ## Bit-level characterization of the scaler -/

theorem setPix_length (buf : List Nat) (bpr x y v : Nat) :
    (setPix buf bpr x y v).length = buf.length := by
  unfold setPix
  split
  · simp
  · rfl

/-- Effect of a single `setPix` on an arbitrary bit of the buffer: the
addressed bit is OR-ed with `v ≠ 0` (when the write lands), every other bit
is untouched. -/
theorem bit_setPix (buf : List Nat) (bpr x y v X Y : Nat)
    (hbpr : 0 < bpr) (hx : x < 8 * bpr) (hX : X < 8 * bpr) :
    bitOf (setPix buf bpr x y v) bpr X Y
      = (bitOf buf bpr X Y ||
         decide (X = x ∧ Y = y ∧ v ≠ 0 ∧ y * bpr + x / 8 < buf.length)) := by
  have h1 : X / 8 < bpr := by rw [Nat.div_lt_iff_lt_mul (by omega : 0 < 8)]; omega
  have h2 : x / 8 < bpr := by rw [Nat.div_lt_iff_lt_mul (by omega : 0 < 8)]; omega
  by_cases hg : y * bpr + x / 8 < buf.length ∧ v ≠ 0
  · have hset : setPix buf bpr x y v
        = buf.set (y * bpr + x / 8)
            (buf.getD (y * bpr + x / 8) 0 ||| 1 <<< (7 - x % 8)) := by
      simp [setPix, hg]
    rw [hset]
    by_cases hI : Y * bpr + X / 8 = y * bpr + x / 8
    · have hYy : Y = y := by
        have e1 : (X / 8 + Y * bpr) / bpr = Y := by
          rw [Nat.add_mul_div_right _ _ hbpr, Nat.div_eq_of_lt h1]
          omega
        have e2 : (x / 8 + y * bpr) / bpr = y := by
          rw [Nat.add_mul_div_right _ _ hbpr, Nat.div_eq_of_lt h2]
          omega
        rw [← e1, ← e2]
        congr 1
        omega
      have hX8 : X / 8 = x / 8 := by
        subst hYy; omega
      have hilen : y * bpr + x / 8 <
          (buf.set (y * bpr + x / 8)
            (buf.getD (y * bpr + x / 8) 0 ||| 1 <<< (7 - x % 8))).length := by
        simpa using hg.1
      unfold bitOf
      rw [hI, List.getD_eq_getElem _ _ hilen, List.getElem_set_self]
      rw [Nat.testBit_or, Nat.one_shiftLeft, Nat.testBit_two_pow]
      by_cases hXx : X = x
      · subst hXx
        have : Y = y := hYy
        subst this
        simp [hg, List.getD_eq_getElem _ _ hg.1]
      · have hmod : X % 8 ≠ x % 8 := by omega
        have hd : decide (7 - x % 8 = 7 - X % 8) = false :=
          decide_eq_false (by omega)
        have hrhs : decide (X = x ∧ Y = y ∧ v ≠ 0 ∧
            y * bpr + x / 8 < buf.length) = false :=
          decide_eq_false (fun hc => hXx hc.1)
        simp [hd, hrhs, List.getD_eq_getElem _ _ hg.1]
    · have hset_ne : (buf.set (y * bpr + x / 8)
          (buf.getD (y * bpr + x / 8) 0 ||| 1 <<< (7 - x % 8))).getD
            (Y * bpr + X / 8) 0 = buf.getD (Y * bpr + X / 8) 0 := by
        rw [List.getD_eq_getElem?_getD, List.getElem?_set_ne (fun h => hI h.symm),
          ← List.getD_eq_getElem?_getD]
      have hrhs : decide (X = x ∧ Y = y ∧ v ≠ 0 ∧
          y * bpr + x / 8 < buf.length) = false :=
        decide_eq_false (fun hc => hI (by rw [hc.1, hc.2.1]))
      unfold bitOf
      rw [hset_ne, hrhs]
      simp
  · have hset : setPix buf bpr x y v = buf := by simp [setPix, hg]
    have hrhs : decide (X = x ∧ Y = y ∧ v ≠ 0 ∧
        y * bpr + x / 8 < buf.length) = false :=
      decide_eq_false (fun hc => hg ⟨hc.2.2.2, hc.2.2.1⟩)
    rw [hset, hrhs]
    simp

theorem bitOf_replicate (n bpr X Y : Nat) :
    bitOf (List.replicate n 0) bpr X Y = false := by
  unfold bitOf
  rw [List.getD_eq_getElem?_getD, List.getElem?_replicate]
  split <;> simp

/-- Folding a list of `setPix` writes: a bit of the result is the starting
bit OR-ed with "some write in the list hits this bit with a nonzero value
inside the buffer". -/
theorem bit_foldl {Q : Type} (dbpr : Nat) (hbpr : 0 < dbpr)
    (tx ty pv : Q → Nat) (OX OY : Nat) (hOX : OX < 8 * dbpr) :
    ∀ (L : List Q) (B : List Nat), (∀ q ∈ L, tx q < 8 * dbpr) →
    bitOf (L.foldl (fun dst q => setPix dst dbpr (tx q) (ty q) (pv q)) B)
        dbpr OX OY
      = (bitOf B dbpr OX OY ||
         L.any (fun q => decide (OX = tx q ∧ OY = ty q ∧ pv q ≠ 0 ∧
           ty q * dbpr + tx q / 8 < B.length))) := by
  intro L
  induction L with
  | nil => intro B _; simp
  | cons q t ih =>
    intro B hv
    rw [List.foldl_cons,
      ih (setPix B dbpr (tx q) (ty q) (pv q))
        (fun r hr => hv r (List.mem_cons_of_mem q hr)),
      setPix_length,
      bit_setPix B dbpr (tx q) (ty q) (pv q) OX OY hbpr
        (hv q (List.mem_cons_self q t)) hOX,
      List.any_cons, Bool.or_assoc]

theorem mem_stepList {gr gc dy dx dgh dgw : Nat} :
    (gr, gc, dy, dx) ∈ stepList dgh dgw ↔
      gr < 6 ∧ gc < 16 ∧ dy < dgh ∧ dx < dgw := by
  simp only [stepList, List.mem_flatMap, List.mem_map, List.mem_range,
    Prod.mk.injEq]
  constructor
  · rintro ⟨a, ha, b, hb, c, hc, d, hd, h1, h2, h3, h4⟩
    subst h1; subst h2; subst h3; subst h4
    exact ⟨ha, hb, hc, hd⟩
  · rintro ⟨h1, h2, h3, h4⟩
    exact ⟨gr, h1, gc, h2, dy, h3, dx, h4, rfl, rfl, rfl, rfl⟩

/-- Uniqueness of the cell decomposition `a * w + b` with `b < w`. -/
theorem grid_unique {a b a' b' w : Nat} (hb : b < w) (hb' : b' < w)
    (h : a * w + b = a' * w + b') : a = a' ∧ b = b' := by
  have hw : 0 < w := by omega
  have e1 : (b + a * w) / w = a := by
    rw [Nat.add_mul_div_right _ _ hw, Nat.div_eq_of_lt hb]
    omega
  have e2 : (b' + a' * w) / w = a' := by
    rw [Nat.add_mul_div_right _ _ hw, Nat.div_eq_of_lt hb']
    omega
  have ha : a = a' := by
    rw [← e1, ← e2]
    congr 1
    omega
  subst ha
  exact ⟨rfl, by omega⟩

/-- Central pointwise theorem on the pure scaler: inside the 6 × 16 grid,
destination bit `(gc*dgw+dx, gr*dgh+dy)` of the scaled atlas equals source
bit `(gc*sgw + dx*sgw/dgw, gr*sgh + dy*sgh/dgh)`. -/
theorem scalePure_bit (src : List Nat) (sgw sgh dgw dgh gr gc dy dx : Nat)
    (hgr : gr < 6) (hgc : gc < 16) (hdy : dy < dgh) (hdx : dx < dgw) :
    bitOf (scalePure src sgw sgh dgw dgh) ((16 * dgw + 7) / 8)
        (gc * dgw + dx) (gr * dgh + dy)
      = bitOf src ((16 * sgw + 7) / 8) (gc * sgw + dx * sgw / dgw)
          (gr * sgh + dy * sgh / dgh) := by
  have hdgw : 0 < dgw := by omega
  have hdgh : 0 < dgh := by omega
  have hbpr : 0 < (16 * dgw + 7) / 8 := Nat.div_pos (by omega) (by omega)
  have h8 : 16 * dgw ≤ 8 * ((16 * dgw + 7) / 8) := by omega
  have hOXw : ∀ a b : Nat, a < 16 → b < dgw →
      a * dgw + b < 8 * ((16 * dgw + 7) / 8) := by
    intro a b ha hb
    have h15 : a * dgw ≤ 15 * dgw := Nat.mul_le_mul_right dgw (by omega)
    omega
  have hOX : gc * dgw + dx < 8 * ((16 * dgw + 7) / 8) := hOXw gc dx hgc hdx
  have hvalid : ∀ q ∈ stepList dgh dgw,
      (fun q : Nat × Nat × Nat × Nat => q.2.1 * dgw + q.2.2.2) q
        < 8 * ((16 * dgw + 7) / 8) := by
    intro q hq
    obtain ⟨qgr, qgc, qdy, qdx⟩ := q
    have hb := mem_stepList.mp hq
    exact hOXw qgc qdx hb.2.1 hb.2.2.2
  have hfun : scaleStep src sgw sgh dgw dgh
      = fun dst (q : Nat × Nat × Nat × Nat) =>
          setPix dst ((16 * dgw + 7) / 8) (q.2.1 * dgw + q.2.2.2)
            (q.1 * dgh + q.2.2.1)
            (if bitOf src ((16 * sgw + 7) / 8)
                (q.2.1 * sgw + (if 0 < dgw then q.2.2.2 * sgw / dgw else 0))
                (q.1 * sgh + (if 0 < dgh then q.2.2.1 * sgh / dgh else 0))
              then 1 else 0) := rfl
  unfold scalePure
  rw [hfun, bit_foldl ((16 * dgw + 7) / 8) hbpr
      (fun q => q.2.1 * dgw + q.2.2.2) (fun q => q.1 * dgh + q.2.2.1)
      (fun q => if bitOf src ((16 * sgw + 7) / 8)
          (q.2.1 * sgw + (if 0 < dgw then q.2.2.2 * sgw / dgw else 0))
          (q.1 * sgh + (if 0 < dgh then q.2.2.1 * sgh / dgh else 0))
        then 1 else 0)
      (gc * dgw + dx) (gr * dgh + dy) hOX (stepList dgh dgw) _ hvalid]
  rw [bitOf_replicate, Bool.false_or]
  simp only [List.length_replicate]
  cases hb' : bitOf src ((16 * sgw + 7) / 8) (gc * sgw + dx * sgw / dgw)
      (gr * sgh + dy * sgh / dgh) with
  | true =>
    apply List.any_eq_true.mpr
    refine ⟨(gr, gc, dy, dx), mem_stepList.mpr ⟨hgr, hgc, hdy, hdx⟩, ?_⟩
    apply decide_eq_true
    refine ⟨rfl, rfl, ?_, ?_⟩
    · simp [hdgw, hdgh, hb']
    · show (gr * dgh + dy) * ((16 * dgw + 7) / 8) + (gc * dgw + dx) / 8
        < ((16 * dgw + 7) / 8) * (6 * dgh)
      have hOY1 : gr * dgh + dy + 1 ≤ 6 * dgh := by
        have h5 : gr * dgh ≤ 5 * dgh := Nat.mul_le_mul_right dgh (by omega)
        omega
      have hOX8 : (gc * dgw + dx) / 8 < (16 * dgw + 7) / 8 := by
        rw [Nat.div_lt_iff_lt_mul (by omega : 0 < 8)]
        omega
      have e3 : (gr * dgh + dy) * ((16 * dgw + 7) / 8) + (gc * dgw + dx) / 8
          < (gr * dgh + dy + 1) * ((16 * dgw + 7) / 8) := by
        have hres : (gr * dgh + dy + 1) * ((16 * dgw + 7) / 8)
            = (gr * dgh + dy) * ((16 * dgw + 7) / 8) + ((16 * dgw + 7) / 8) :=
          Nat.succ_mul _ _
        omega
      have e4 : (gr * dgh + dy + 1) * ((16 * dgw + 7) / 8)
          ≤ (6 * dgh) * ((16 * dgw + 7) / 8) :=
        Nat.mul_le_mul_right _ hOY1
      have e5 : (6 * dgh) * ((16 * dgw + 7) / 8)
          = ((16 * dgw + 7) / 8) * (6 * dgh) := Nat.mul_comm _ _
      omega
  | false =>
    apply List.any_eq_false.mpr
    intro q hq
    obtain ⟨qgr, qgc, qdy, qdx⟩ := q
    have hbnd := mem_stepList.mp hq
    simp only [decide_eq_true_eq]
    rintro ⟨e1, e2, hpv, -⟩
    obtain ⟨hgceq, hdxeq⟩ := grid_unique hdx hbnd.2.2.2 e1
    obtain ⟨hgreq, hdyeq⟩ := grid_unique hdy hbnd.2.2.1 e2
    subst hgceq; subst hdxeq; subst hgreq; subst hdyeq
    simp [hdgw, hdgh, hb'] at hpv

/-! ## C2: nearest-neighbor scaling -/

/-- C2.  For every glyph cell `(gr, gc)` of the fixed 16-per-row grid and
every destination pixel `(dx, dy)` inside the destination cell, the scaled
atlas bit at the glyph's destination offset plus `(dx, dy)` equals the
source atlas bit at the glyph's source offset plus
`(dx * src_w / dst_w, dy * src_h / dst_h)` (integer floor division —
nearest neighbor). -/
theorem c2_nearest_neighbor (src : List Nat)
    (sgw sgh dgw dgh gr gc dy dx : Nat)
    (hgr : gr < 6) (hgc : gc < 16) (hdy : dy < dgh) (hdx : dx < dgw) :
    (scale_1bpp_atlas src sgw sgh dgw dgh 16).map
        (fun out => bitOf out ((16 * dgw + 7) / 8)
          (gc * dgw + dx) (gr * dgh + dy))
      = some (bitOf src ((16 * sgw + 7) / 8) (gc * sgw + dx * sgw / dgw)
          (gr * sgh + dy * sgh / dgh)) := by
  rw [scale_eq_scalePure, Option.map_some']
  exact congrArg some
    (scalePure_bit src sgw sgh dgw dgh gr gc dy dx hgr hgc hdy hdx)

/-- A 2×2-cell source atlas (16 glyphs per row, 6 rows, atlas width 32,
stride 4) whose glyph 0 carries the block
`{(0,0) = 1, (1,0) = 0, (0,1) = 0, (1,1) = 1}`. -/
def c2src : List Nat := [128, 0, 0, 0, 64, 0, 0, 0] ++ List.replicate 40 0

/-- C2 witness: scaling the 2×2 block of `c2src` to a 4×4 cell yields the
four 2×2 blocks of the claim — corners `(0,0)` and `(3,3)` read 1, corners
`(3,0)` and `(0,3)` read 0. -/
theorem c2_nearest_neighbor_witness :
    (scale_1bpp_atlas c2src 2 2 4 4 16).map (fun out => bitOf out 8 0 0)
        = some true ∧
    (scale_1bpp_atlas c2src 2 2 4 4 16).map (fun out => bitOf out 8 3 0)
        = some false ∧
    (scale_1bpp_atlas c2src 2 2 4 4 16).map (fun out => bitOf out 8 0 3)
        = some false ∧
    (scale_1bpp_atlas c2src 2 2 4 4 16).map (fun out => bitOf out 8 3 3)
        = some true :=
  ⟨(c2_nearest_neighbor c2src 2 2 4 4 0 0 0 0 (by decide) (by decide)
      (by decide) (by decide)).trans (by decide),
   (c2_nearest_neighbor c2src 2 2 4 4 0 0 0 3 (by decide) (by decide)
      (by decide) (by decide)).trans (by decide),
   (c2_nearest_neighbor c2src 2 2 4 4 0 0 3 0 (by decide) (by decide)
      (by decide) (by decide)).trans (by decide),
   (c2_nearest_neighbor c2src 2 2 4 4 0 0 3 3 (by decide) (by decide)
      (by decide) (by decide)).trans (by decide)⟩

/-! ## C1: identity scale -/

theorem setPix_mem_lt (buf : List Nat) (bpr x y v : Nat)
    (hb : ∀ b ∈ buf, b < 256) : ∀ b ∈ setPix buf bpr x y v, b < 256 := by
  by_cases hg : y * bpr + x / 8 < buf.length ∧ v ≠ 0
  · have hset : setPix buf bpr x y v
        = buf.set (y * bpr + x / 8)
            (buf.getD (y * bpr + x / 8) 0 ||| 1 <<< (7 - x % 8)) := by
      simp [setPix, hg]
    rw [hset]
    intro b hbm
    rcases List.mem_or_eq_of_mem_set hbm with h | h
    · exact hb b h
    · subst h
      have h1 : buf.getD (y * bpr + x / 8) 0 < 2 ^ 8 := by
        rw [List.getD_eq_getElem _ _ hg.1]
        have := hb _ (List.getElem_mem hg.1)
        omega
      have h2 : 1 <<< (7 - x % 8) < 2 ^ 8 := by
        rw [Nat.one_shiftLeft]
        have : 2 ^ (7 - x % 8) ≤ 2 ^ 7 :=
          Nat.pow_le_pow_right (by omega) (by omega)
        omega
      have := Nat.or_lt_two_pow h1 h2
      omega
  · have hset : setPix buf bpr x y v = buf := by simp [setPix, hg]
    rw [hset]
    exact hb

theorem foldl_mem_lt {α : Type} (f : List Nat → α → List Nat)
    (hf : ∀ s a, (∀ b ∈ s, b < 256) → ∀ b ∈ f s a, b < 256) :
    ∀ (l : List α) (s : List Nat),
      (∀ b ∈ s, b < 256) → ∀ b ∈ l.foldl f s, b < 256 := by
  intro l
  induction l with
  | nil => intro s hs; exact hs
  | cons a t ih => intro s hs; exact ih (f s a) (hf s a hs)

/-- Reading byte `i`, bit `j < 8` of a packed buffer through `bitOf`. -/
theorem bitOf_byte (l : List Nat) (bpr i j : Nat) (hj : j < 8)
    (hi : i < l.length) :
    bitOf l bpr (8 * (i % bpr) + (7 - j)) (i / bpr) = l[i].testBit j := by
  unfold bitOf
  have hX8 : (8 * (i % bpr) + (7 - j)) / 8 = i % bpr := by omega
  have hXm : (8 * (i % bpr) + (7 - j)) % 8 = 7 - j := by omega
  rw [hX8, hXm]
  have hidx : i / bpr * bpr + i % bpr = i := by
    have h1 : i / bpr * bpr = bpr * (i / bpr) := Nat.mul_comm _ _
    have h2 := Nat.div_add_mod i bpr
    omega
  rw [hidx]
  have hjj : 7 - (7 - j) = j := by omega
  rw [hjj, List.getD_eq_getElem _ _ hi]

/-- C1.  Identity scale: for a source atlas of the expected 864 bytes
(stride 12 × 72 rows of the 6×12, 96-glyph grid), scaling with the
destination cell equal to the source cell reproduces the source atlas
bit-for-bit. -/
theorem c1_identity_scale (src : List Nat) (hlen : src.length = 12 * 72)
    (hbytes : ∀ b ∈ src, b < 256) :
    scale_1bpp_atlas src 6 12 6 12 16 = some src := by
  rw [scale_eq_scalePure]
  refine congrArg some ?_
  have hstep_len : ∀ (s : List Nat) (q : Nat × Nat × Nat × Nat),
      (scaleStep src 6 12 6 12 s q).length = s.length :=
    fun s q => setPix_length _ _ _ _ _
  have hlenP : (scalePure src 6 12 6 12).length = 12 * 72 := by
    unfold scalePure
    rw [foldl_length_eq _ hstep_len, List.length_replicate]
  have houtb : ∀ b ∈ scalePure src 6 12 6 12, b < 256 := by
    unfold scalePure
    refine foldl_mem_lt _ (fun s q => setPix_mem_lt _ _ _ _ _) _ _ ?_
    intro b hb
    rw [List.eq_of_mem_replicate hb]
    omega
  apply List.ext_getElem (by omega)
  intro i h1 h2
  apply Nat.eq_of_testBit_eq
  intro j
  by_cases hj : j < 8
  · have hb1 := bitOf_byte (scalePure src 6 12 6 12) 12 i j hj h1
    have hb2 := bitOf_byte src 12 i j hj h2
    rw [← hb1, ← hb2]
    have hi864 : i < 12 * 72 := by omega
    have hgr : i / 12 / 12 < 6 := by omega
    have hgc : (8 * (i % 12) + (7 - j)) / 6 < 16 := by omega
    have hdy : i / 12 % 12 < 12 := by omega
    have hdx : (8 * (i % 12) + (7 - j)) % 6 < 6 := by omega
    have hsb := scalePure_bit src 6 12 6 12 (i / 12 / 12)
      ((8 * (i % 12) + (7 - j)) / 6) (i / 12 % 12)
      ((8 * (i % 12) + (7 - j)) % 6) hgr hgc hdy hdx
    have hXeq : (8 * (i % 12) + (7 - j)) / 6 * 6 + (8 * (i % 12) + (7 - j)) % 6
        = 8 * (i % 12) + (7 - j) := by omega
    have hYeq : i / 12 / 12 * 12 + i / 12 % 12 = i / 12 := by omega
    have hsx : (8 * (i % 12) + (7 - j)) % 6 * 6 / 6
        = (8 * (i % 12) + (7 - j)) % 6 := by omega
    have hsy : i / 12 % 12 * 12 / 12 = i / 12 % 12 := by omega
    rw [hXeq, hYeq, hsx, hsy, hXeq, hYeq] at hsb
    exact hsb
  · have hj8 : 8 ≤ j := by omega
    have hp : (2 : Nat) ^ 8 ≤ 2 ^ j := Nat.pow_le_pow_right (by omega) hj8
    have h256 : (256 : Nat) ≤ 2 ^ j := Nat.le_trans (by norm_num) hp
    rw [Nat.testBit_lt_two_pow
          (Nat.lt_of_lt_of_le (houtb _ (List.getElem_mem h1)) h256),
        Nat.testBit_lt_two_pow
          (Nat.lt_of_lt_of_le (hbytes _ (List.getElem_mem h2)) h256)]

/-- A concrete 864-byte atlas buffer for the identity-scale witness. -/
def c1src : List Nat := (List.range 864).map (fun k => k % 256)

/-- C1 witness: identity scale reproduces a concrete 864-byte atlas. -/
theorem c1_identity_scale_witness :
    scale_1bpp_atlas c1src 6 12 6 12 16 = some c1src :=
  c1_identity_scale c1src
    (by simp [c1src])
    (by
      intro b hb
      simp only [c1src, List.mem_map] at hb
      obtain ⟨k, -, rfl⟩ := hb
      exact Nat.mod_lt _ (by omega))

/-! ## Layout table and write loop of `convert_icons_to_bin.py` -/

/-- One entry of a `LAYOUTS` value (convert_icons_to_bin.py, line 17):
optional crop rectangle `(x, y, w, h)`, output file name, optional explicit
square size (the third tuple element, present only for the logo). -/
structure LayoutItem where
  rect : Option (Nat × Nat × Nat × Nat)
  out_name : String
  explicit_size : Option Nat

/-- `LAYOUTS` (convert_icons_to_bin.py, lines 18-42), in declared order. -/
def LAYOUTS : List (String × List LayoutItem) := [
  ("sistema.jpg", [⟨none, "system.bin", none⟩]),
  ("archivos.jpg", [⟨none, "files.bin", none⟩]),
  ("aplicaciones.jpg", [⟨none, "apps.bin", none⟩]),
  ("red.jpg", [⟨none, "network.bin", none⟩]),
  ("iconos-eclipse-2.jpg",
    [⟨some (0, 0, 341, 1024), "btn_close.bin", none⟩,
     ⟨some (341, 0, 342, 1024), "btn_min.bin", none⟩,
     ⟨some (682, 0, 342, 1024), "btn_max.bin", none⟩]),
  ("minimizar.jpg", [⟨none, "btn_min.bin", none⟩]),
  ("maximizar.jpg", [⟨none, "btn_max.bin", none⟩]),
  ("cerrar.jpg", [⟨none, "btn_close.bin", none⟩]),
  ("logo-eclipse.jpg", [⟨some (150, 150, 724, 724), "logo.bin", some 600⟩])]

/-- The write loop of `main` (convert_icons_to_bin.py, lines 88-108) as the
ordered sequence of `(output_name, bytes)` file writes it performs:
`present` is `find_source` succeeding, missing sources are skipped with the
whole entry, and each item writes the conversion `convert` of its source
and rule. -/
def runLayouts (layouts : List (String × List LayoutItem))
    (present : String → Bool)
    (convert : String → LayoutItem → List Nat) :
    List (String × List Nat) :=
  layouts.foldl (fun writes entry =>
    if present entry.1 then
      entry.2.foldl (fun ws item =>
        ws ++ [(item.out_name, convert entry.1 item)]) writes
    else writes) []

/-- The content a file name holds after a sequence of writes: the last
write to that name wins. -/
def finalContent (writes : List (String × List Nat)) (name : String) :
    Option (List Nat) :=
  ((writes.filter (fun wr => wr.1 == name)).getLast?).map (fun wr => wr.2)

/-- The rules of the layout table applicable to output `name`, in declared
order. -/
def rulesFor (layouts : List (String × List LayoutItem))
    (present : String → Bool) (name : String) :
    List (String × LayoutItem) :=
  (layouts.flatMap (fun e =>
    if present e.1 then e.2.map (fun item => (e.1, item)) else [])).filter
    (fun r => r.2.out_name == name)

theorem runLayouts_flat (present : String → Bool)
    (convert : String → LayoutItem → List Nat)
    (layouts : List (String × List LayoutItem)) :
    runLayouts layouts present convert
      = layouts.flatMap (fun e => if present e.1 then
          e.2.map (fun it => (it.out_name, convert e.1 it)) else []) := by
  have hitems : ∀ (s : String) (items : List LayoutItem)
      (acc : List (String × List Nat)),
      items.foldl (fun ws it => ws ++ [(it.out_name, convert s it)]) acc
        = acc ++ items.map (fun it => (it.out_name, convert s it)) := by
    intro s items
    induction items with
    | nil => intro acc; simp
    | cons it t ih =>
      intro acc
      rw [List.foldl_cons, ih]
      simp
  have hmain : ∀ (L : List (String × List LayoutItem))
      (acc : List (String × List Nat)),
      L.foldl (fun writes entry =>
        if present entry.1 then
          entry.2.foldl (fun ws item =>
            ws ++ [(item.out_name, convert entry.1 item)]) writes
        else writes) acc
      = acc ++ L.flatMap (fun e => if present e.1 then
          e.2.map (fun it => (it.out_name, convert e.1 it)) else []) := by
    intro L
    induction L with
    | nil => intro acc; simp
    | cons e t ih =>
      intro acc
      rw [List.foldl_cons, List.flatMap_cons]
      by_cases hp : present e.1
      · rw [if_pos hp, hitems e.1 e.2 acc, ih, if_pos hp, List.append_assoc]
      · rw [if_neg hp, ih, if_neg hp]
        simp
  exact (hmain layouts []).trans (List.nil_append _)

/-- The final content of an output name is the conversion of the last
applicable rule. -/
theorem finalContent_runLayouts (layouts : List (String × List LayoutItem))
    (present : String → Bool) (convert : String → LayoutItem → List Nat)
    (name : String) :
    finalContent (runLayouts layouts present convert) name
      = (rulesFor layouts present name).getLast?.map
          (fun r => convert r.1 r.2) := by
  rw [runLayouts_flat]
  have hmapflat : (layouts.flatMap (fun e => if present e.1 then
        e.2.map (fun it => (it.out_name, convert e.1 it)) else []))
      = (layouts.flatMap (fun e => if present e.1 then
          e.2.map (fun item => (e.1, item)) else [])).map
        (fun r => (r.2.out_name, convert r.1 r.2)) := by
    rw [List.map_flatMap]
    congr 1
    funext e
    by_cases hp : present e.1
    · rw [if_pos hp, if_pos hp, List.map_map]
      rfl
    · rw [if_neg hp, if_neg hp]
      rfl
  unfold finalContent rulesFor
  rw [hmapflat, List.filter_map, List.getLast?_map, Option.map_map]
  rfl

/-! ## C8: layout override is last-write-wins -/

/-- C8.  When the ordered layout rules are applied in declared order, the
final content of every output name is the conversion produced by the *last*
applicable rule for that name; in particular, on the actual `LAYOUTS` table
with every source present, `btn_close.bin` ends up as the conversion of
`cerrar.jpg` (the later individual-file rule), not of the earlier
`iconos-eclipse-2.jpg` crop rule. -/
theorem c8_layout_override :
    (∀ (layouts : List (String × List LayoutItem))
       (present : String → Bool)
       (convert : String → LayoutItem → List Nat) (name : String),
      finalContent (runLayouts layouts present convert) name
        = (rulesFor layouts present name).getLast?.map
            (fun r => convert r.1 r.2)) ∧
    (∀ convert : String → LayoutItem → List Nat,
      finalContent (runLayouts LAYOUTS (fun _ => true) convert)
          "btn_close.bin"
        = some (convert "cerrar.jpg" ⟨none, "btn_close.bin", none⟩)) := by
  refine ⟨finalContent_runLayouts, ?_⟩
  intro convert
  rw [finalContent_runLayouts]
  rfl

/-! ## C9: crop error behavior -/

/-- A decoded source raster, reduced to its pixel dimensions — the only
data the crop-bounds contract concerns. -/
structure PILImage where
  width : Nat
  height : Nat

/-- Modelled from the spec: PIL's `Image.crop` is external library code
absent from `src/` (only its call site in `main` is there); per spec §4.5,
"coordinates are absolute pixel offsets into the source; extraction fails
if the rectangle exceeds source bounds", and a successful extraction of box
`(l, t, r, b)` yields an `(r - l) × (b - t)` image. -/
def crop (img : PILImage) (box : Nat × Nat × Nat × Nat) : Option PILImage :=
  let (l, t, r, b) := box
  if l ≤ r ∧ t ≤ b ∧ r ≤ img.width ∧ b ≤ img.height then
    some ⟨r - l, b - t⟩
  else none

/-- The crop call of `main` (convert_icons_to_bin.py, lines 103-104):
`x, y, w, h = spec; region = img.crop((x, y, x + w, y + h))`. -/
def cropRegion (img : PILImage) (rect : Nat × Nat × Nat × Nat) :
    Option PILImage :=
  let (x, y, w, h) := rect
  crop img (x, y, x + w, y + h)

/-- C9.  For a layout entry with crop rectangle `(x, y, w, h)`: extraction
fails (hard error) exactly when the rectangle exceeds the source bounds,
and otherwise yields an image of exactly `w × h`. -/
theorem c9_crop_bounds (img : PILImage) (x y w h : Nat) :
    (x + w ≤ img.width → y + h ≤ img.height →
      cropRegion img (x, y, w, h) = some ⟨w, h⟩) ∧
    (img.width < x + w ∨ img.height < y + h →
      cropRegion img (x, y, w, h) = none) := by
  constructor
  · intro h1 h2
    show (if x ≤ x + w ∧ y ≤ y + h ∧ x + w ≤ img.width ∧ y + h ≤ img.height
      then some (⟨x + w - x, y + h - y⟩ : PILImage) else none)
        = some (⟨w, h⟩ : PILImage)
    rw [if_pos ⟨by omega, by omega, h1, h2⟩]
    simp only [PILImage.mk.injEq, Option.some.injEq]
    constructor <;> omega
  · intro hor
    show (if x ≤ x + w ∧ y ≤ y + h ∧ x + w ≤ img.width ∧ y + h ≤ img.height
      then some (⟨x + w - x, y + h - y⟩ : PILImage) else none) = none
    rw [if_neg ?_]
    rintro ⟨-, -, h3, h4⟩
    rcases hor with h | h <;> omega

/-- C9 witness: cropping rect `(0, 0, 341, 1024)` from a 1024×1024 source
succeeds and yields exactly a 341×1024 image. -/
theorem c9_crop_bounds_witness :
    cropRegion ⟨1024, 1024⟩ (0, 0, 341, 1024) = some ⟨341, 1024⟩ :=
  (c9_crop_bounds ⟨1024, 1024⟩ 0 0 341 1024).1 (by decide) (by decide)

/-! ## C10: size selection and output buffer size -/

/-- Python's substring test `pat in hay` on strings: some offset of `hay`
starts with `pat`. -/
def strContains (hay pat : String) : Bool :=
  (List.range (hay.data.length + 1)).any
    (fun i => pat.data.isPrefixOf (hay.data.drop i))

/-- The size selection of `main` (convert_icons_to_bin.py, line 99):
`(item[2], item[2])` when the entry carries a third element, else
`(64, 64)` if `"btn_"` is not a substring of the output name, else
`(20, 20)`. -/
def pickSize (item : LayoutItem) : Nat × Nat :=
  match item.explicit_size with
  | some s => (s, s)
  | none =>
    if !strContains item.out_name "btn_" then (64, 64) else (20, 20)

/-- C10.  Entries without an explicit size get 20×20 exactly when the
output name contains `"btn_"` and 64×64 otherwise; entries with a third
element use it as the explicit square size; and the emitted buffer of
`to_rgb888` always has exactly `width * height * 3` bytes. -/
theorem c10_size_selection :
    (∀ item : LayoutItem, item.explicit_size = none →
      pickSize item
        = if strContains item.out_name "btn_" then (20, 20) else (64, 64)) ∧
    (∀ (item : LayoutItem) (s : Nat), item.explicit_size = some s →
      pickSize item = (s, s)) ∧
    (∀ (w h : Nat) (pix : Nat → Nat → PixelVal) (bt : Bool),
      (to_rgb888 (w, h) pix bt).length = w * h * 3) := by
  refine ⟨?_, ?_, ?_⟩
  · intro item hnone
    unfold pickSize
    rw [hnone]
    cases hc : strContains item.out_name "btn_" <;> simp [hc]
  · intro item s hsome
    unfold pickSize
    rw [hsome]
  · intro w h pix bt
    unfold to_rgb888
    rw [foldl_length_eq _ (fun s y => foldl_length_eq _ (fun s x => by
          simp only [List.length_set]) _ s) _ _]
    simp

/-- C10 witness: `btn_close.bin` (no explicit size) gets 20×20,
`apps.bin` gets 64×64, the logo entry's explicit 600 gives 600×600, and a
2×2 conversion emits exactly 12 bytes. -/
theorem c10_size_selection_witness :
    pickSize ⟨none, "btn_close.bin", none⟩ = (20, 20) ∧
    pickSize ⟨none, "apps.bin", none⟩ = (64, 64) ∧
    pickSize ⟨some (150, 150, 724, 724), "logo.bin", some 600⟩ = (600, 600) ∧
    (to_rgb888 (2, 2) (fun _ _ => .rgb 0 0 0) true).length = 2 * 2 * 3 :=
  ⟨(c10_size_selection.1 ⟨none, "btn_close.bin", none⟩ rfl).trans (by decide),
   (c10_size_selection.1 ⟨none, "apps.bin", none⟩ rfl).trans (by decide),
   c10_size_selection.2.1 ⟨some (150, 150, 724, 724), "logo.bin", some 600⟩
     600 rfl,
   c10_size_selection.2.2 2 2 (fun _ _ => .rgb 0 0 0) true⟩
